import Mathlib

/-
Verification of the c-ringbuf byte FIFO against its design document.

The repository ships the interface header `ringbuf.h` (with extensive
behavioural doc comments) and the unit-test driver, but not `ringbuf.c`
itself, so every operation below is modelled from the design document's
description of its behaviour (and cross-checked against the assertions of
the test driver).  Pointers into the storage region are represented as
offsets from the region base; the storage region itself is a list of
byte values.
-/

/-- Modelled from the spec: the RingBuffer owns a contiguous byte region of
physical size equal to usable capacity plus one, and holds two cursors,
`head` (next write position) and `tail` (next read position), both always
within the region.  `size` is the physical size, `head` and `tail` are
offsets from the region base, and `data` is the contents of the region
(`data.length = size` for well-formed buffers). -/
structure Ringbuf where
  size : Nat
  head : Nat
  tail : Nat
  data : List Nat
  deriving Repr, DecidableEq

/-- Well-formedness of a buffer state: both cursors lie inside the physical
region and the region really has `size` bytes.  Every constructor
establishes this and every operation preserves it. -/
def WF (rb : Ringbuf) : Prop :=
  rb.head < rb.size ∧ rb.tail < rb.size ∧ rb.data.length = rb.size

instance (rb : Ringbuf) : Decidable (WF rb) := by
  unfold WF; infer_instance

/-- Modelled from the spec: `ringbufNew(capacity)` (the implementation file
`ringbuf.c` is absent from the sources) allocates a buffer whose physical
size is `capacity + 1` — one byte is reserved to disambiguate full from
empty — with `head = tail = base`, i.e. empty.  Allocation failure is a
resource condition outside the model, so the model always succeeds. -/
def ringbufNew (capacity : Nat) : Ringbuf :=
  { size := capacity + 1, head := 0, tail := 0,
    data := List.replicate (capacity + 1) 0 }

/-- Modelled from the spec: physical size of the internal storage region. -/
def ringbufBufferSize (rb : Ringbuf) : Nat := rb.size

/-- Modelled from the spec: usable capacity, one less than the physical
size. -/
def ringbufCapacity (rb : Ringbuf) : Nat := rb.size - 1

/-- Modelled from the spec: `bytesUsed = (head - tail) mod physicalSize`,
written with natural-number arithmetic as `(head + size - tail) % size`. -/
def ringbufBytesUsed (rb : Ringbuf) : Nat :=
  (rb.head + rb.size - rb.tail) % rb.size

/-- Modelled from the spec: `bytesFree = capacity - bytesUsed`. -/
def ringbufBytesFree (rb : Ringbuf) : Nat :=
  ringbufCapacity rb - ringbufBytesUsed rb

/-- Modelled from the spec: the buffer is full when `bytesUsed` reaches the
capacity. -/
def ringbufIsFull (rb : Ringbuf) : Bool :=
  ringbufBytesUsed rb == ringbufCapacity rb

/-- Modelled from the spec: the buffer is empty exactly when `head = tail`. -/
def ringbufIsEmpty (rb : Ringbuf) : Bool :=
  rb.head == rb.tail

/-- Modelled from the spec: `reset` returns the buffer to its initial empty
state, `head = tail = base`, without scrubbing memory. -/
def ringbufReset (rb : Ringbuf) : Ringbuf :=
  { rb with head := 0, tail := 0 }

/-- Writes the byte list `bs` into the region `data` of physical size `sz`
starting at offset `pos`, wrapping at the physical end; later writes
overwrite earlier ones.  This is the common wrap-aware store loop of the
fill and copy-in operations. -/
def writeRun (sz : Nat) : List Nat → Nat → List Nat → List Nat
  | data, _, [] => data
  | data, pos, b :: rest => writeRun sz (data.set pos b) ((pos + 1) % sz) rest

/-- Reads `n` bytes from the region `data` of physical size `sz` starting
at offset `pos`, wrapping at the physical end.  This is the common
wrap-aware load loop of the extraction operations. -/
def readRun (sz : Nat) (data : List Nat) : Nat → Nat → List Nat
  | _, 0 => []
  | pos, Nat.succ m => data.getD pos 0 :: readRun sz data ((pos + 1) % sz) m

/-- Modelled from the spec: after `n` bytes have been stored at `head`, the
head cursor advances by `n` (mod physical size); if the write exceeded the
free space this is an overflow, and the tail cursor is advanced forward by
the excess `n - priorBytesFree` (mod physical size) so the invariants
remain valid, discarding the oldest bytes FIFO-style. -/
def advanceAfterWrite (rb : Ringbuf) (n : Nat) : Ringbuf :=
  let fr := ringbufBytesFree rb
  { rb with
    head := (rb.head + n) % rb.size,
    tail := if fr < n then (rb.tail + (n - fr)) % rb.size else rb.tail }

/-- Modelled from the spec: `ringbufMemset(dst, c, len)` fills the buffer
from `head` with `min(len, bufferSize)` repetitions of the byte `c`
(converted to an unsigned char), wrapping at the physical end, then applies
the overflow policy; it returns the number of bytes written: `len` if
`len < bufferSize`, else `bufferSize`. -/
def ringbufMemset (rb : Ringbuf) (c : Nat) (len : Nat) : Nat × Ringbuf :=
  let n := min len rb.size
  let rb1 := { rb with
    data := writeRun rb.size rb.data rb.head (List.replicate n (c % 256)) }
  (n, advanceAfterWrite rb1 n)

/-- Modelled from the spec: `ringbufMemcpyInto(dst, src, count)` copies the
flat byte sequence `src` into the buffer starting at `head`, wrapping as
needed (if the sequence is longer than the physical size only its final
bytes are retained, earlier wraps being overwritten), applies the overflow
policy, and returns the new head position. -/
def ringbufMemcpyInto (rb : Ringbuf) (src : List Nat) : Nat × Ringbuf :=
  let rb1 := { rb with data := writeRun rb.size rb.data rb.head src }
  let rb2 := advanceAfterWrite rb1 src.length
  (rb2.head, rb2)

/-- Modelled from the spec: `ringbufMemcpyFrom(dst, src, count)` refuses
underflow — if `count > bytesUsed` it copies nothing, changes nothing and
returns the sentinel 0, modelled as `none` — and otherwise copies `count`
bytes starting at `tail` (wrapping at the physical end), advances `tail` by
`count`, and returns the copied bytes together with the new tail position
(the C function returns the new tail pointer, which is never null). -/
def ringbufMemcpyFrom (rb : Ringbuf) (count : Nat) :
    Option (List Nat × Nat) × Ringbuf :=
  if ringbufBytesUsed rb < count then (none, rb)
  else
    let out := readRun rb.size rb.data rb.tail count
    let rb1 := { rb with tail := (rb.tail + count) % rb.size }
    (some (out, rb1.tail), rb1)

/-- Modelled from the spec: `ringbufRead(fd, rb, count)` issues exactly one
`read(2)` requesting `min(count, contiguous space from head to the physical
end of the region)` bytes; the stream is modelled by the byte list `input`
it has available, so the attempt receives the requested amount clamped to
`input.length`.  The received bytes are stored at `head` and the overflow
policy is applied; the received count is returned. -/
def ringbufRead (input : List Nat) (rb : Ringbuf) (count : Nat) :
    Nat × Ringbuf :=
  let attempt := min count (rb.size - rb.head)
  let received := min attempt input.length
  let rb1 := { rb with
    data := writeRun rb.size rb.data rb.head (input.take received) }
  (received, advanceAfterWrite rb1 received)

/-- Modelled from the spec: `ringbufWrite(fd, rb, count)` refuses underflow
up front — if `count > bytesUsed` it performs no stream operation, changes
nothing and returns 0 — and otherwise issues exactly one `write(2)` of
`min(count, contiguous bytes from tail to the physical end)` bytes (the
sink is modelled as accepting everything offered), advancing `tail` by the
bytes actually sent and returning that count together with the bytes. -/
def ringbufWrite (rb : Ringbuf) (count : Nat) : Nat × List Nat × Ringbuf :=
  if ringbufBytesUsed rb < count then (0, [], rb)
  else
    let sent := min count (rb.size - rb.tail)
    (sent, readRun rb.size rb.data rb.tail sent,
      { rb with tail := (rb.tail + sent) % rb.size })

/-- Modelled from the spec: `ringbufCopy(dst, src, count)` refuses underflow
of `src` — if `count > src.bytesUsed` nothing happens to either buffer and
the sentinel 0 (`none`) is returned — and otherwise moves `count` bytes
from `src`'s tail into `dst` at its head (overflow-tolerant on `dst`),
returning `dst`'s new head position. -/
def ringbufCopy (dst src : Ringbuf) (count : Nat) :
    Option Nat × Ringbuf × Ringbuf :=
  if ringbufBytesUsed src < count then (none, dst, src)
  else
    let bytes := readRun src.size src.data src.tail count
    let src1 := { src with tail := (src.tail + count) % src.size }
    let dst1 := { dst with data := writeRun dst.size dst.data dst.head bytes }
    let dst2 := advanceAfterWrite dst1 count
    (some dst2.head, dst2, src1)

/-- Logical byte of the buffer at offset `i` from the tail cursor, i.e. the
stored byte at physical offset `(tail + i) % size`. -/
def byteAt (rb : Ringbuf) (i : Nat) : Nat :=
  rb.data.getD ((rb.tail + i) % rb.size) 0

/-- Search loop of `ringbufFindchr`: scan logical offsets from `i` up to
(but excluding) `used`, returning the first offset whose logical byte is
`c`, or `used` when none is. -/
def findFrom (rb : Ringbuf) (c : Nat) (used : Nat) (i : Nat) : Nat :=
  if h : i < used then
    if byteAt rb i = c then i else findFrom rb c used (i + 1)
  else used
termination_by used - i

/-- Modelled from the spec: `ringbufFindchr(rb, c, offset)` scans only the
occupied window, beginning at logical offset `offset` from the tail, for
the first occurrence of `c` (converted to an unsigned char); it returns the
logical offset of the first match, or `bytesUsed` if absent or if `offset`
is not below `bytesUsed`. -/
def ringbufFindchr (rb : Ringbuf) (c : Nat) (offset : Nat) : Nat :=
  findFrom rb (c % 256) (ringbufBytesUsed rb) offset

/-- Modelled from the spec: whether the head pointer lies in the address
range `[memBot, memTop)`; `base` is the address of the storage region, so
the head pointer is the address `base + head`.  Returns 1 when in range and
0 when not, as the C function does. -/
def ringbufHeadptrInRange (base : Nat) (rb : Ringbuf) (memBot memTop : Nat) :
    Nat :=
  if memBot ≤ base + rb.head ∧ base + rb.head < memTop then 1 else 0

/-- Modelled from the spec: whether the tail pointer lies in the address
range `[memBot, memTop)`. -/
def ringbufTailptrInRange (base : Nat) (rb : Ringbuf) (memBot memTop : Nat) :
    Nat :=
  if memBot ≤ base + rb.tail ∧ base + rb.tail < memTop then 1 else 0

/-- Modelled from the spec: `ringbufDMAokInRange` returns 1 when DMA into
the range is allowed — neither the head pointer nor the tail pointer lies
in `[memBot, memTop)` — and 0 when it is forbidden. -/
def ringbufDMAokInRange (base : Nat) (rb : Ringbuf) (memBot memTop : Nat) :
    Nat :=
  if ringbufHeadptrInRange base rb memBot memTop = 0 ∧
      ringbufTailptrInRange base rb memBot memTop = 0 then 1 else 0

/-- Modelled from the spec: `ringbufDMAForbiddenInRange` is the speed-
optimised negation of `ringbufDMAokInRange`: it combines the two cursor
range tests without branching and returns a non-zero value exactly when at
least one cursor lies in the range, 0 when DMA is allowed. -/
def ringbufDMAForbiddenInRange (base : Nat) (rb : Ringbuf)
    (memBot memTop : Nat) : Nat :=
  ringbufHeadptrInRange base rb memBot memTop +
    ringbufTailptrInRange base rb memBot memTop

/-- Operations a client can perform on one buffer, used to describe the
reachable states.  The inter-buffer copy involves a second buffer, carried
by the operation either as the source (`copyFrom`, our buffer being the
destination) or as the destination (`copyTo`, our buffer being the
source). -/
inductive Op where
  | reset : Op
  | fill (c len : Nat) : Op
  | copyIn (src : List Nat) : Op
  | streamRead (input : List Nat) (count : Nat) : Op
  | extract (count : Nat) : Op
  | streamWrite (count : Nat) : Op
  | copyFrom (other : Ringbuf) (count : Nat) : Op
  | copyTo (other : Ringbuf) (count : Nat) : Op

/-- Effect of one operation on a buffer state. -/
def step (rb : Ringbuf) : Op → Ringbuf
  | Op.reset => ringbufReset rb
  | Op.fill c len => (ringbufMemset rb c len).2
  | Op.copyIn src => (ringbufMemcpyInto rb src).2
  | Op.streamRead input count => (ringbufRead input rb count).2
  | Op.extract count => (ringbufMemcpyFrom rb count).2
  | Op.streamWrite count => (ringbufWrite rb count).2.2
  | Op.copyFrom other count => (ringbufCopy rb other count).2.1
  | Op.copyTo other count => (ringbufCopy other rb count).2.2

/-- State reached from a fresh buffer of the given capacity by a sequence
of operations. -/
def runOps (capacity : Nat) (ops : List Op) : Ringbuf :=
  List.foldl step (ringbufNew capacity) ops

/-- The wrap-aware store loop never changes the length of the region. -/
theorem writeRun_length (sz : Nat) (bs : List Nat) :
    ∀ (data : List Nat) (pos : Nat),
      (writeRun sz data pos bs).length = data.length := by
  induction bs with
  | nil => intro data pos; rfl
  | cons b rest ih =>
    intro data pos
    rw [writeRun, ih, List.length_set]

/-- Adding a positive amount smaller than the modulus moves a reduced
residue. -/
theorem add_mod_ne_self (sz pos k : Nat) (hpos : pos < sz) (hk1 : 0 < k)
    (hk2 : k < sz) : (pos + k) % sz ≠ pos := by
  intro h
  rcases Nat.lt_or_ge (pos + k) sz with hlt | hge
  · rw [Nat.mod_eq_of_lt hlt] at h; omega
  · have h2 : pos + k - sz < sz := by omega
    rw [Nat.mod_eq_sub_mod hge, Nat.mod_eq_of_lt h2] at h; omega

/-- The wrap-aware store loop leaves positions outside the written window
untouched. -/
theorem writeRun_getElem_of_notin (sz : Nat) (bs : List Nat) :
    ∀ (data : List Nat) (pos p : Nat), pos < sz →
      (∀ i, i < bs.length → (pos + i) % sz ≠ p) →
      (writeRun sz data pos bs)[p]? = data[p]? := by
  induction bs with
  | nil => intro data pos p _ _; rfl
  | cons b rest ih =>
    intro data pos p hpos hp
    have hsz : 0 < sz := by omega
    have hpos1 : (pos + 1) % sz < sz := Nat.mod_lt _ hsz
    have hne : pos ≠ p := by
      have h0 := hp 0 (by simp)
      rwa [Nat.add_zero, Nat.mod_eq_of_lt hpos] at h0
    rw [writeRun, ih _ _ _ hpos1 ?_, List.getElem?_set_ne hne]
    intro i hi
    rw [Nat.mod_add_mod, show pos + 1 + i = pos + (i + 1) by omega]
    exact hp (i + 1) (by simpa using Nat.succ_lt_succ hi)

/-- The wrap-aware store loop stores the byte list verbatim: when at most
`sz` bytes are written starting inside a region of `sz` bytes, the byte at
wrapped offset `i` from the start position is the `i`-th byte of the
list. -/
theorem writeRun_getElem_written (sz : Nat) (bs : List Nat) :
    ∀ (data : List Nat) (pos i : Nat), bs.length ≤ sz → pos < sz →
      data.length = sz → i < bs.length →
      (writeRun sz data pos bs)[(pos + i) % sz]? = bs[i]? := by
  induction bs with
  | nil => intro data pos i _ _ _ hi; simp at hi
  | cons b rest ih =>
    intro data pos i hsz hpos hlen hi
    have hszpos : 0 < sz := by omega
    cases i with
    | zero =>
      rw [writeRun]
      simp only [Nat.add_zero, Nat.mod_eq_of_lt hpos]
      rw [writeRun_getElem_of_notin sz rest _ _ pos (Nat.mod_lt _ hszpos) ?_]
      · rw [List.getElem?_set_self (by omega)]
        simp
      · intro j hj
        rw [Nat.mod_add_mod, show pos + 1 + j = pos + (j + 1) by omega]
        exact add_mod_ne_self sz pos (j + 1) hpos (by omega)
          (by simp at hsz; omega)
    | succ j =>
      have hrw : (pos + (j + 1)) % sz = ((pos + 1) % sz + j) % sz := by
        rw [Nat.mod_add_mod]; congr 1; omega
      rw [writeRun, hrw,
        ih _ _ j (by simp at hsz; omega) (Nat.mod_lt _ hszpos)
          (by rw [List.length_set]; exact hlen) (by simpa using hi)]
      simp

/-- The wrap-aware load loop reads exactly `n` bytes. -/
theorem readRun_length (sz : Nat) (data : List Nat) (n : Nat) :
    ∀ pos, (readRun sz data pos n).length = n := by
  induction n with
  | zero => intro pos; rfl
  | succ m ih => intro pos; rw [readRun, List.length_cons, ih]

/-- The wrap-aware load loop reads the byte at wrapped offset `i` from the
start position. -/
theorem readRun_getElem (sz : Nat) (data : List Nat) (n : Nat) :
    ∀ pos i, pos < sz → i < n →
      (readRun sz data pos n)[i]? = some (data.getD ((pos + i) % sz) 0) := by
  induction n with
  | zero => intro pos i _ hi; omega
  | succ m ih =>
    intro pos i hpos hi
    have hsz : 0 < sz := by omega
    cases i with
    | zero =>
      rw [readRun]
      simp only [Nat.add_zero, Nat.mod_eq_of_lt hpos, List.getElem?_cons_zero]
    | succ j =>
      have hrw : (pos + (j + 1)) % sz = ((pos + 1) % sz + j) % sz := by
        rw [Nat.mod_add_mod]; congr 1; omega
      rw [readRun, hrw]
      rw [List.getElem?_cons_succ, ih _ j (Nat.mod_lt _ hsz) (by omega)]

/-- Advancing the head by `n` adds `n` to the cursor distance, before
reduction mod the physical size. -/
theorem used_advance (S h t n : Nat) (ht : t ≤ S) :
    ((h + n) % S + S - t) % S = (h + S - t + n) % S := by
  rcases Nat.eq_zero_or_pos S with hS | hS
  · subst hS; simp only [Nat.mod_zero]; omega
  have hm : (h + n) % S < S := Nat.mod_lt _ hS
  rw [show (h + n) % S + S - t = (h + n) % S + (S - t) by omega,
    Nat.mod_add_mod]
  congr 1; omega

/-- Advancing head and tail by the same amount leaves the cursor distance
unchanged. -/
theorem used_shift_cancel (S h t n : Nat) (hS : 0 < S) (ht : t < S) :
    ((h + n) % S + S - (t + n) % S) % S = (h + S - t) % S := by
  have hm : (t + n) % S < S := Nat.mod_lt _ hS
  have hdm := Nat.div_add_mod (t + n) S
  rw [show (h + n) % S + S - (t + n) % S
      = (h + n) % S + (S - (t + n) % S) by omega, Nat.mod_add_mod]
  rw [show h + n + (S - (t + n) % S) = h + (S - t) + S * ((t + n) / S) by omega]
  rw [Nat.add_mul_mod_self_left]
  congr 1; omega

/-- The byte count in use is always below the physical size. -/
theorem used_lt_size (rb : Ringbuf) (h : 0 < rb.size) :
    ringbufBytesUsed rb < rb.size :=
  Nat.mod_lt _ h

/-- A well-formed buffer with no bytes in use has coincident cursors. -/
theorem head_eq_tail_of_used_zero (rb : Ringbuf) (hwf : WF rb)
    (h0 : ringbufBytesUsed rb = 0) : rb.head = rb.tail := by
  obtain ⟨h1, h2, _⟩ := hwf
  unfold ringbufBytesUsed at h0
  rcases Nat.lt_or_ge (rb.head + rb.size - rb.tail) rb.size with hlt | hge
  · rw [Nat.mod_eq_of_lt hlt] at h0; omega
  · have hx : rb.head + rb.size - rb.tail - rb.size < rb.size := by omega
    rw [Nat.mod_eq_sub_mod hge, Nat.mod_eq_of_lt hx] at h0; omega

/-- Cursor effect of the overflow policy: the head advances by the stored
count, the tail only moves (by the excess over the free space) when an
overflow occurred, and size and data are untouched. -/
theorem advanceAfterWrite_fields (rb : Ringbuf) (n : Nat) :
    (advanceAfterWrite rb n).size = rb.size ∧
    (advanceAfterWrite rb n).data = rb.data ∧
    (advanceAfterWrite rb n).head = (rb.head + n) % rb.size ∧
    (advanceAfterWrite rb n).tail =
      (if ringbufBytesFree rb < n
       then (rb.tail + (n - ringbufBytesFree rb)) % rb.size
       else rb.tail) := by
  refine ⟨rfl, rfl, rfl, rfl⟩

/-- Every operation preserves well-formedness of the buffer it acts on. -/
theorem WF_step (rb : Ringbuf) (op : Op) (h : WF rb) : WF (step rb op) := by
  obtain ⟨h1, h2, h3⟩ := h
  have hsz : 0 < rb.size := by omega
  have hadv : ∀ (d : List Nat) (n : Nat), d.length = rb.size →
      WF (advanceAfterWrite { rb with data := d } n) := by
    intro d n hd
    refine ⟨Nat.mod_lt _ hsz, ?_, hd⟩
    simp only [advanceAfterWrite]
    split
    · exact Nat.mod_lt _ hsz
    · exact h2
  cases op with
  | reset => exact ⟨hsz, hsz, h3⟩
  | fill c len =>
    exact hadv _ _ (by rw [writeRun_length]; exact h3)
  | copyIn src =>
    exact hadv _ _ (by rw [writeRun_length]; exact h3)
  | streamRead input count =>
    exact hadv _ _ (by rw [writeRun_length]; exact h3)
  | extract count =>
    show WF (ringbufMemcpyFrom rb count).2
    unfold ringbufMemcpyFrom
    split
    · exact ⟨h1, h2, h3⟩
    · exact ⟨h1, Nat.mod_lt _ hsz, h3⟩
  | streamWrite count =>
    show WF (ringbufWrite rb count).2.2
    unfold ringbufWrite
    split
    · exact ⟨h1, h2, h3⟩
    · exact ⟨h1, Nat.mod_lt _ hsz, h3⟩
  | copyFrom other count =>
    show WF (ringbufCopy rb other count).2.1
    unfold ringbufCopy
    by_cases hc : ringbufBytesUsed other < count
    · rw [if_pos hc]
      exact ⟨h1, h2, h3⟩
    · rw [if_neg hc]
      have hlen2 : (writeRun rb.size rb.data rb.head
          (readRun other.size other.data other.tail count)).length = rb.size := by
        rw [writeRun_length]; exact h3
      exact hadv _ count hlen2
  | copyTo other count =>
    show WF (ringbufCopy other rb count).2.2
    unfold ringbufCopy
    split
    · exact ⟨h1, h2, h3⟩
    · exact ⟨h1, Nat.mod_lt _ hsz, h3⟩

/-- Well-formedness holds in every reachable state. -/
theorem WF_runOps (capacity : Nat) (ops : List Op) :
    WF (runOps capacity ops) := by
  have hstep : ∀ (l : List Op) (rb : Ringbuf), WF rb →
      WF (List.foldl step rb l) := by
    intro l
    induction l with
    | nil => intro rb h; exact h
    | cons o rest ih => intro rb h; exact ih _ (WF_step rb o h)
  exact hstep ops _ ⟨Nat.succ_pos _, Nat.succ_pos _, by
    simp [ringbufNew, List.length_replicate]⟩

/-- C1: for every ring buffer state reachable by any sequence of
create/reset/fill/copy-in/stream-read/extract/stream-write/inter-buffer-
copy operations, `bytesUsed + bytesFree = capacity`, and both `bytesUsed`
and `bytesFree` lie in `[0, capacity]`. -/
theorem c1_state_accounting (capacity : Nat) (ops : List Op) :
    ringbufBytesUsed (runOps capacity ops) +
        ringbufBytesFree (runOps capacity ops) =
      ringbufCapacity (runOps capacity ops) ∧
    ringbufBytesUsed (runOps capacity ops) ≤
      ringbufCapacity (runOps capacity ops) ∧
    ringbufBytesFree (runOps capacity ops) ≤
      ringbufCapacity (runOps capacity ops) := by
  obtain ⟨h1, h2, h3⟩ := WF_runOps capacity ops
  have hu : ringbufBytesUsed (runOps capacity ops) <
      (runOps capacity ops).size := Nat.mod_lt _ (by omega)
  unfold ringbufBytesFree ringbufCapacity
  omega

/-- C8: every buffer built by `ringbufNew c` (the model's allocation always
succeeds) has internal buffer size `c + 1` and usable capacity `c`, and is
empty, with both cursors at the region base; in particular `ringbufNew 24`
gives buffer size 25 and capacity 24. -/
theorem c8_construction_sizing (capacity : Nat) :
    ringbufBufferSize (ringbufNew capacity) = capacity + 1 ∧
    ringbufCapacity (ringbufNew capacity) = capacity ∧
    (ringbufNew capacity).head = 0 ∧
    (ringbufNew capacity).tail = 0 ∧
    ringbufBytesUsed (ringbufNew capacity) = 0 ∧
    ringbufIsEmpty (ringbufNew capacity) = true ∧
    ringbufBufferSize (ringbufNew 24) = 25 ∧
    ringbufCapacity (ringbufNew 24) = 24 := by
  refine ⟨rfl, rfl, rfl, rfl, ?_, rfl, rfl, rfl⟩
  show (0 + (capacity + 1) - 0) % (capacity + 1) = 0
  simp

/-- C10: extracting zero bytes is a success, not an underflow: for every
well-formed buffer, `ringbufMemcpyFrom` with count 0 copies no bytes,
leaves the buffer unchanged, and returns the current tail position (a
`some`, modelling the non-null tail pointer), never the `none` that models
the 0 underflow sentinel. -/
theorem c10_zero_count_extraction (rb : Ringbuf) (hwf : WF rb) :
    ringbufMemcpyFrom rb 0 = (some ([], rb.tail), rb) ∧
    (ringbufMemcpyFrom rb 0).1 ≠ none := by
  obtain ⟨sz, hd, tl, d⟩ := rb
  obtain ⟨h1, h2, h3⟩ := hwf
  have heq : ringbufMemcpyFrom ⟨sz, hd, tl, d⟩ 0 =
      (some ([], tl), ⟨sz, hd, tl, d⟩) := by
    unfold ringbufMemcpyFrom
    rw [if_neg (by omega)]
    simp only [readRun, Nat.add_zero]
    rw [Nat.mod_eq_of_lt h2]
  exact ⟨heq, by rw [heq]; simp⟩

/-- Closed instance of `c10_zero_count_extraction` at a concrete buffer. -/
theorem c10_zero_count_extraction_witness :
    ringbufMemcpyFrom (ringbufNew 4) 0 =
      (some ([], (ringbufNew 4).tail), ringbufNew 4) ∧
    (ringbufMemcpyFrom (ringbufNew 4) 0).1 ≠ none :=
  c10_zero_count_extraction (ringbufNew 4) (by decide)

/-- C3: underflow refusal is atomic: when the requested count exceeds the
bytes in use of the buffer read from, each extraction-side operation —
`ringbufMemcpyFrom`, `ringbufWrite` and `ringbufCopy` — transfers no bytes,
leaves every involved buffer completely unchanged, and returns the 0
sentinel (`none` for the pointer-returning operations). -/
theorem c3_underflow_refusal (rb dst src : Ringbuf) (count : Nat)
    (h1 : ringbufBytesUsed rb < count) (h2 : ringbufBytesUsed src < count) :
    ringbufMemcpyFrom rb count = (none, rb) ∧
    ringbufWrite rb count = (0, [], rb) ∧
    ringbufCopy dst src count = (none, dst, src) := by
  refine ⟨?_, ?_, ?_⟩
  · unfold ringbufMemcpyFrom; rw [if_pos h1]
  · unfold ringbufWrite; rw [if_pos h1]
  · unfold ringbufCopy; rw [if_pos h2]

/-- Closed instance of `c3_underflow_refusal`: a buffer holding 2 bytes
refuses a 3-byte extraction, stream write and inter-buffer copy. -/
theorem c3_underflow_refusal_witness :
    ringbufMemcpyFrom ((ringbufMemcpyInto (ringbufNew 4) [9, 8]).2) 3 =
      (none, (ringbufMemcpyInto (ringbufNew 4) [9, 8]).2) ∧
    ringbufWrite ((ringbufMemcpyInto (ringbufNew 4) [9, 8]).2) 3 =
      (0, [], (ringbufMemcpyInto (ringbufNew 4) [9, 8]).2) ∧
    ringbufCopy (ringbufNew 4) ((ringbufMemcpyInto (ringbufNew 4) [9, 8]).2) 3 =
      (none, ringbufNew 4, (ringbufMemcpyInto (ringbufNew 4) [9, 8]).2) :=
  c3_underflow_refusal ((ringbufMemcpyInto (ringbufNew 4) [9, 8]).2)
    (ringbufNew 4) ((ringbufMemcpyInto (ringbufNew 4) [9, 8]).2) 3
    (by decide) (by decide)

/-- C5: the stream-read wrapper issues a single bounded attempt: the byte
count it returns never exceeds `min(count, contiguous space from head to
the physical end of the region)`; and the count can be short purely because
the physical end was reached, while more logical capacity remains past the
wrap — witnessed by a buffer with 4 free bytes but only 2 contiguous ones,
where a 4-byte request against an ample stream receives only 2 bytes. -/
theorem c5_stream_read_clamp :
    (∀ (input : List Nat) (rb : Ringbuf) (count : Nat),
        (ringbufRead input rb count).1 ≤ min count (rb.size - rb.head)) ∧
    ((ringbufRead [7, 7, 7, 7, 7, 7, 7, 7]
        (ringbufMemcpyFrom ((ringbufMemcpyInto (ringbufNew 4) [1, 2, 3]).2)
          3).2 4).1 = 2 ∧
      (2 : Nat) < 4 ∧
      2 < ringbufBytesFree
        (ringbufMemcpyFrom ((ringbufMemcpyInto (ringbufNew 4) [1, 2, 3]).2)
          3).2) := by
  constructor
  · intro input rb count
    show min (min count (rb.size - rb.head)) input.length ≤
      min count (rb.size - rb.head)
    exact Nat.min_le_left _ _
  · refine ⟨by decide, by decide, by decide⟩

/-- C9: the DMA predicates agree: with an ascending range, `ringbufDMAok`
returns 1 exactly when neither the head pointer nor the tail pointer lies
in `[memBot, memTop)`, and `ringbufDMAForbiddenInRange` is its logical
negation, returning non-zero exactly when `ringbufDMAokInRange` returns
0. -/
theorem c9_dma_predicates (base : Nat) (rb : Ringbuf) (memBot memTop : Nat)
    (hrange : memBot < memTop) :
    (ringbufDMAokInRange base rb memBot memTop = 1 ↔
      ¬ (memBot ≤ base + rb.head ∧ base + rb.head < memTop) ∧
      ¬ (memBot ≤ base + rb.tail ∧ base + rb.tail < memTop)) ∧
    (ringbufDMAForbiddenInRange base rb memBot memTop ≠ 0 ↔
      ringbufDMAokInRange base rb memBot memTop = 0) := by
  unfold ringbufDMAokInRange ringbufDMAForbiddenInRange
    ringbufHeadptrInRange ringbufTailptrInRange
  split_ifs <;> simp_all

/-- Closed instance of `c9_dma_predicates` at a concrete buffer and
range. -/
theorem c9_dma_predicates_witness :
    (ringbufDMAokInRange 10 (ringbufNew 4) 0 5 = 1 ↔
      ¬ ((0 : Nat) ≤ 10 + (ringbufNew 4).head ∧
          10 + (ringbufNew 4).head < 5) ∧
      ¬ ((0 : Nat) ≤ 10 + (ringbufNew 4).tail ∧
          10 + (ringbufNew 4).tail < 5)) ∧
    (ringbufDMAForbiddenInRange 10 (ringbufNew 4) 0 5 ≠ 0 ↔
      ringbufDMAokInRange 10 (ringbufNew 4) 0 5 = 0) :=
  c9_dma_predicates 10 (ringbufNew 4) 0 5 (by decide)

/-- Unfolding of `ringbufMemset` into its cursor effect: the returned count
is the clamped length, the head advances by it, the tail moves only on
overflow, and the region holds the filled bytes. -/
theorem ringbufMemset_unfold (rb : Ringbuf) (c len : Nat) :
    ringbufMemset rb c len =
      (min len rb.size,
        { size := rb.size,
          head := (rb.head + min len rb.size) % rb.size,
          tail := if ringbufBytesFree rb < min len rb.size
            then (rb.tail + (min len rb.size - ringbufBytesFree rb)) % rb.size
            else rb.tail,
          data := writeRun rb.size rb.data rb.head
            (List.replicate (min len rb.size) (c % 256)) }) := rfl

/-- Unfolding of `ringbufMemcpyInto` into its cursor effect. -/
theorem ringbufMemcpyInto_unfold (rb : Ringbuf) (src : List Nat) :
    ringbufMemcpyInto rb src =
      ((rb.head + src.length) % rb.size,
        { size := rb.size,
          head := (rb.head + src.length) % rb.size,
          tail := if ringbufBytesFree rb < src.length
            then (rb.tail + (src.length - ringbufBytesFree rb)) % rb.size
            else rb.tail,
          data := writeRun rb.size rb.data rb.head src }) := rfl

/-- C2 counterexample: the overflow-determinism claim quantifies over every
buffer of capacity `C`, but when the buffer is not empty before the writes
the first write already overflows and moves the tail, so after writing
`C` bytes and then 1 more the tail has advanced by more than one position
from its pre-write location.  Concretely: a capacity-2 buffer holding one
byte, after `ringbufMemset` of 2 bytes and then of 1 byte, has its tail at
offset 2 while the claim predicts offset 1. -/
theorem c2_counterexample :
    ¬ ((ringbufMemset (ringbufMemset (ringbufMemset (ringbufNew 2) 5 1).2
          7 2).2 7 1).2.tail =
        ((ringbufMemset (ringbufNew 2) 5 1).2.tail + 1) %
          (ringbufMemset (ringbufNew 2) 5 1).2.size) := by decide

/-- C2 (amended: the buffer must be empty before the two writes, as in the
spec's scenario): for every well-formed empty buffer, filling it with
`capacity` bytes and then writing 1 more byte leaves `bytesUsed` equal to
the capacity (the buffer full) and the tail advanced by exactly one
position (mod the physical size) from its pre-write location, the oldest
byte having been discarded. -/
theorem c2_overflow_determinism (rb : Ringbuf) (c1 c2 : Nat) (hwf : WF rb)
    (hempty : ringbufBytesUsed rb = 0) :
    ringbufBytesUsed
        (ringbufMemset (ringbufMemset rb c1 (ringbufCapacity rb)).2 c2 1).2 =
      ringbufCapacity rb ∧
    (ringbufMemset (ringbufMemset rb c1 (ringbufCapacity rb)).2 c2 1).2.tail =
      (rb.tail + 1) % rb.size := by
  obtain ⟨hh, ht, hd⟩ := hwf
  have hS : 0 < rb.size := by omega
  have hcaplt : ringbufCapacity rb < rb.size := by unfold ringbufCapacity; omega
  have hmin : min (ringbufCapacity rb) rb.size = ringbufCapacity rb := by omega
  have hempty0 : (rb.head + rb.size - rb.tail) % rb.size = 0 := hempty
  have hfree : ringbufBytesFree rb = ringbufCapacity rb := by
    unfold ringbufBytesFree
    rw [hempty]
    omega
  -- cursor facts about the state after the first (capacity-sized) fill
  have h1size : (ringbufMemset rb c1 (ringbufCapacity rb)).2.size = rb.size :=
    rfl
  have h1head : (ringbufMemset rb c1 (ringbufCapacity rb)).2.head =
      (rb.head + ringbufCapacity rb) % rb.size := by
    show (rb.head + min (ringbufCapacity rb) rb.size) % rb.size = _
    rw [hmin]
  have h1tail : (ringbufMemset rb c1 (ringbufCapacity rb)).2.tail = rb.tail := by
    show (if ringbufBytesFree rb < min (ringbufCapacity rb) rb.size
        then (rb.tail + (min (ringbufCapacity rb) rb.size -
          ringbufBytesFree rb)) % rb.size
        else rb.tail) = rb.tail
    rw [hmin, hfree, if_neg (lt_irrefl _)]
  -- the first fill leaves the buffer exactly full
  have hused1 : ringbufBytesUsed (ringbufMemset rb c1 (ringbufCapacity rb)).2 =
      ringbufCapacity rb := by
    unfold ringbufBytesUsed
    rw [h1size, h1head, h1tail]
    rw [used_advance rb.size rb.head rb.tail (ringbufCapacity rb) ht.le]
    rw [Nat.add_mod (rb.head + rb.size - rb.tail) (ringbufCapacity rb),
      hempty0, Nat.zero_add, Nat.mod_mod_of_dvd _ (dvd_refl rb.size),
      Nat.mod_eq_of_lt hcaplt]
  have hcap1 : ringbufCapacity (ringbufMemset rb c1 (ringbufCapacity rb)).2 =
      rb.size - 1 := by
    show (ringbufMemset rb c1 (ringbufCapacity rb)).2.size - 1 = rb.size - 1
    rw [h1size]
  have hfree1 : ringbufBytesFree (ringbufMemset rb c1 (ringbufCapacity rb)).2 =
      0 := by
    unfold ringbufBytesFree
    rw [hused1, hcap1]
    unfold ringbufCapacity
    omega
  -- cursor facts about the state after the second (one-byte) fill
  have hmin2 : min 1 (ringbufMemset rb c1 (ringbufCapacity rb)).2.size = 1 := by
    rw [h1size]; omega
  have h2tail :
      (ringbufMemset (ringbufMemset rb c1 (ringbufCapacity rb)).2 c2 1).2.tail =
        (rb.tail + 1) % rb.size := by
    show (if ringbufBytesFree (ringbufMemset rb c1 (ringbufCapacity rb)).2 <
          min 1 (ringbufMemset rb c1 (ringbufCapacity rb)).2.size
        then ((ringbufMemset rb c1 (ringbufCapacity rb)).2.tail +
          (min 1 (ringbufMemset rb c1 (ringbufCapacity rb)).2.size -
            ringbufBytesFree (ringbufMemset rb c1 (ringbufCapacity rb)).2)) %
          (ringbufMemset rb c1 (ringbufCapacity rb)).2.size
        else (ringbufMemset rb c1 (ringbufCapacity rb)).2.tail) = _
    rw [hmin2, hfree1, h1size, h1tail, if_pos Nat.zero_lt_one]
  have h2head :
      (ringbufMemset (ringbufMemset rb c1 (ringbufCapacity rb)).2 c2 1).2.head =
        (rb.head + ringbufCapacity rb + 1) % rb.size := by
    show ((ringbufMemset rb c1 (ringbufCapacity rb)).2.head +
        min 1 (ringbufMemset rb c1 (ringbufCapacity rb)).2.size) %
        (ringbufMemset rb c1 (ringbufCapacity rb)).2.size = _
    rw [hmin2, h1size, h1head, Nat.mod_add_mod]
  have h2size :
      (ringbufMemset (ringbufMemset rb c1 (ringbufCapacity rb)).2 c2 1).2.size =
        rb.size := rfl
  refine ⟨?_, h2tail⟩
  unfold ringbufBytesUsed
  rw [h2size, h2head, h2tail]
  rw [used_shift_cancel rb.size (rb.head + ringbufCapacity rb) rb.tail 1 hS ht]
  rw [show rb.head + ringbufCapacity rb + rb.size - rb.tail =
    rb.head + rb.size - rb.tail + ringbufCapacity rb by omega]
  rw [Nat.add_mod (rb.head + rb.size - rb.tail) (ringbufCapacity rb),
    hempty0, Nat.zero_add, Nat.mod_mod_of_dvd _ (dvd_refl rb.size),
    Nat.mod_eq_of_lt hcaplt]

/-- Closed instance of `c2_overflow_determinism` at a freshly created
capacity-4 buffer. -/
theorem c2_overflow_determinism_witness :
    ringbufBytesUsed
        (ringbufMemset
          (ringbufMemset (ringbufNew 4) 65 (ringbufCapacity (ringbufNew 4))).2
          66 1).2 =
      ringbufCapacity (ringbufNew 4) ∧
    (ringbufMemset
        (ringbufMemset (ringbufNew 4) 65 (ringbufCapacity (ringbufNew 4))).2
        66 1).2.tail =
      ((ringbufNew 4).tail + 1) % (ringbufNew 4).size :=
  c2_overflow_determinism (ringbufNew 4) 65 66 (by decide) (by decide)

/-- C7: `ringbufMemset` writes exactly `min(len, bufferSize)` repetitions
of the byte starting at the head cursor, wrapping at the physical end, and
leaves every storage position outside that window untouched; it returns
`len` when `len < ringbufBufferSize dst`, else `ringbufBufferSize dst`. -/
theorem c7_memset_clamp (rb : Ringbuf) (c len : Nat) (hwf : WF rb) :
    (ringbufMemset rb c len).1 =
      (if len < ringbufBufferSize rb then len else ringbufBufferSize rb) ∧
    (∀ i, i < min len rb.size →
      (ringbufMemset rb c len).2.data[(rb.head + i) % rb.size]? =
        some (c % 256)) ∧
    (∀ p, p < rb.size →
      (∀ i, i < min len rb.size → (rb.head + i) % rb.size ≠ p) →
      (ringbufMemset rb c len).2.data[p]? = rb.data[p]?) := by
  obtain ⟨h1, h2, h3⟩ := hwf
  have hdata : (ringbufMemset rb c len).2.data =
      writeRun rb.size rb.data rb.head
        (List.replicate (min len rb.size) (c % 256)) := rfl
  refine ⟨?_, ?_, ?_⟩
  · show min len rb.size = _
    unfold ringbufBufferSize
    rcases Nat.lt_or_ge len rb.size with hlt | hge
    · rw [if_pos hlt]; omega
    · rw [if_neg (by omega)]; omega
  · intro i hi
    rw [hdata,
      writeRun_getElem_written rb.size _ rb.data rb.head i
        (by rw [List.length_replicate]; exact Nat.min_le_right _ _) h1 h3
        (by rw [List.length_replicate]; exact hi),
      List.getElem?_replicate, if_pos hi]
  · intro p hp hnot
    rw [hdata]
    exact writeRun_getElem_of_notin rb.size _ rb.data rb.head p h1
      (by intro i hi
          rw [List.length_replicate] at hi
          exact hnot i hi)

/-- Closed instance of `c7_memset_clamp`: filling a capacity-3 buffer (of
physical size 4) with 10 copies of byte 300 clamps to 4 bytes written. -/
theorem c7_memset_clamp_witness :
    (ringbufMemset (ringbufNew 3) 300 10).1 =
      (if 10 < ringbufBufferSize (ringbufNew 3) then 10
       else ringbufBufferSize (ringbufNew 3)) ∧
    (∀ i, i < min 10 (ringbufNew 3).size →
      (ringbufMemset (ringbufNew 3) 300 10).2.data[((ringbufNew 3).head + i) %
          (ringbufNew 3).size]? =
        some (300 % 256)) ∧
    (∀ p, p < (ringbufNew 3).size →
      (∀ i, i < min 10 (ringbufNew 3).size →
        ((ringbufNew 3).head + i) % (ringbufNew 3).size ≠ p) →
      (ringbufMemset (ringbufNew 3) 300 10).2.data[p]? =
        (ringbufNew 3).data[p]?) :=
  c7_memset_clamp (ringbufNew 3) 300 10 (by decide)

/-- Correctness of the search loop: starting at `i ≤ used`, `findFrom`
either returns `used` with no match anywhere in `[i, used)`, or returns the
least matching logical offset in `[i, used)`. -/
theorem findFrom_spec (rb : Ringbuf) (c : Nat) (used : Nat) :
    ∀ (k i : Nat), used - i ≤ k → i ≤ used →
      (findFrom rb c used i = used ∧
        ∀ j, i ≤ j → j < used → byteAt rb j ≠ c) ∨
      (i ≤ findFrom rb c used i ∧ findFrom rb c used i < used ∧
        byteAt rb (findFrom rb c used i) = c ∧
        ∀ j, i ≤ j → j < findFrom rb c used i → byteAt rb j ≠ c) := by
  intro k
  induction k with
  | zero =>
    intro i hk hi
    have hiu : i = used := by omega
    subst hiu
    left
    refine ⟨?_, ?_⟩
    · rw [findFrom, dif_neg (lt_irrefl i)]
    · intro j hj1 hj2; omega
  | succ m ih =>
    intro i hk hi
    by_cases hlt : i < used
    · by_cases hb : byteAt rb i = c
      · right
        have hr : findFrom rb c used i = i := by
          rw [findFrom, dif_pos hlt, if_pos hb]
        rw [hr]
        exact ⟨le_refl i, hlt, hb, fun j hj1 hj2 => absurd (lt_of_le_of_lt hj1 hj2) (lt_irrefl i)⟩
      · have hr : findFrom rb c used i = findFrom rb c used (i + 1) := by
          rw [findFrom, dif_pos hlt, if_neg hb]
        rcases ih (i + 1) (by omega) (by omega) with ⟨he, hnone⟩ | ⟨ha, hb2, hc2, hd2⟩
        · left
          refine ⟨by rw [hr]; exact he, ?_⟩
          intro j hj1 hj2
          rcases Nat.eq_or_lt_of_le hj1 with hji | hji
          · rw [← hji]; exact hb
          · exact hnone j hji hj2
        · right
          rw [hr]
          refine ⟨by omega, hb2, hc2, ?_⟩
          intro j hj1 hj2
          rcases Nat.eq_or_lt_of_le hj1 with hji | hji
          · rw [← hji]; exact hb
          · exact hd2 j hji hj2
    · have hiu : i = used := by omega
      subst hiu
      left
      refine ⟨?_, ?_⟩
      · rw [findFrom, dif_neg (lt_irrefl i)]
      · intro j hj1 hj2; omega

/-- C6: `ringbufFindchr` searches only the occupied window: its result
never exceeds `bytesUsed`; it returns exactly `bytesUsed` when the starting
offset is not below `bytesUsed`; and otherwise it either returns
`bytesUsed` with the byte absent from every occupied logical position at or
past the offset, or returns the logical offset (from the tail) of the first
occurrence of the byte — reduced to an unsigned char — within the occupied
window, never a position outside it. -/
theorem c6_search_domain (rb : Ringbuf) (c : Nat) (offset : Nat) :
    ringbufFindchr rb c offset ≤ ringbufBytesUsed rb ∧
    (ringbufBytesUsed rb ≤ offset →
      ringbufFindchr rb c offset = ringbufBytesUsed rb) ∧
    ((ringbufFindchr rb c offset = ringbufBytesUsed rb ∧
        ∀ j, offset ≤ j → j < ringbufBytesUsed rb → byteAt rb j ≠ c % 256) ∨
      (offset ≤ ringbufFindchr rb c offset ∧
        ringbufFindchr rb c offset < ringbufBytesUsed rb ∧
        byteAt rb (ringbufFindchr rb c offset) = c % 256 ∧
        ∀ j, offset ≤ j → j < ringbufFindchr rb c offset →
          byteAt rb j ≠ c % 256)) := by
  by_cases hle : offset ≤ ringbufBytesUsed rb
  · have hspec := findFrom_spec rb (c % 256) (ringbufBytesUsed rb)
      (ringbufBytesUsed rb - offset) offset (le_refl _) hle
    have hfind : ringbufFindchr rb c offset =
        findFrom rb (c % 256) (ringbufBytesUsed rb) offset := rfl
    rcases hspec with ⟨he, hnone⟩ | ⟨ha, hb, hc2, hd⟩
    · rw [hfind, he]
      exact ⟨le_refl _, fun _ => rfl, Or.inl ⟨rfl, hnone⟩⟩
    · rw [hfind]
      refine ⟨hb.le, ?_, Or.inr ⟨ha, hb, hc2, hd⟩⟩
      intro hgeq
      omega
  · have he : ringbufFindchr rb c offset = ringbufBytesUsed rb := by
      show findFrom rb (c % 256) (ringbufBytesUsed rb) offset = _
      rw [findFrom, dif_neg (by omega)]
    refine ⟨he.le, fun _ => he, Or.inl ⟨he, ?_⟩⟩
    intro j hj1 hj2
    omega

/-- C4 counterexample: the round-trip claim quantifies over every buffer
state, but extraction is FIFO — it reads from the tail, which points at the
oldest bytes, not at the bytes just copied in.  Concretely: a capacity-2
buffer already holding byte 1, after `ringbufMemcpyInto` of the one-byte
source `[2]` (which fits, as one byte is free) followed by
`ringbufMemcpyFrom` of 1 byte, yields the old byte `[1]`, not the source
`[2]`. -/
theorem c4_counterexample :
    1 ≤ ringbufBytesFree (ringbufMemcpyInto (ringbufNew 2) [1]).2 ∧
    (ringbufMemcpyFrom
        (ringbufMemcpyInto (ringbufMemcpyInto (ringbufNew 2) [1]).2 [2]).2
        1).1 =
      some ([1], 1) ∧
    ([1] : List Nat) ≠ [2] := by decide

/-- C4 (amended: the destination equals the source when the buffer was
empty before the copy-in; the count restoration holds for every state): for
every well-formed buffer and every source not exceeding `bytesFree`,
copying the source in with `ringbufMemcpyInto` and then extracting the same
number of bytes with `ringbufMemcpyFrom` restores `bytesUsed` and
`bytesFree` to their pre-copy values, and — when the buffer was empty
before the copy-in — the extracted bytes equal the source data. -/
theorem c4_round_trip (rb : Ringbuf) (src : List Nat) (hwf : WF rb)
    (hn : src.length ≤ ringbufBytesFree rb) :
    ringbufBytesUsed
        (ringbufMemcpyFrom (ringbufMemcpyInto rb src).2 src.length).2 =
      ringbufBytesUsed rb ∧
    ringbufBytesFree
        (ringbufMemcpyFrom (ringbufMemcpyInto rb src).2 src.length).2 =
      ringbufBytesFree rb ∧
    (ringbufBytesUsed rb = 0 →
      (ringbufMemcpyFrom (ringbufMemcpyInto rb src).2 src.length).1 =
        some (src, (rb.tail + src.length) % rb.size)) := by
  obtain ⟨hh, ht, hd⟩ := hwf
  have hS : 0 < rb.size := by omega
  have hud : ringbufBytesUsed rb =
      (rb.head + rb.size - rb.tail) % rb.size := rfl
  have hu : ringbufBytesUsed rb < rb.size := Nat.mod_lt _ hS
  have hn' : src.length ≤ rb.size - 1 - ringbufBytesUsed rb := hn
  -- cursor facts about the state after the copy-in (no overflow occurs)
  have h1size : (ringbufMemcpyInto rb src).2.size = rb.size := rfl
  have h1head : (ringbufMemcpyInto rb src).2.head =
      (rb.head + src.length) % rb.size := rfl
  have h1data : (ringbufMemcpyInto rb src).2.data =
      writeRun rb.size rb.data rb.head src := rfl
  have h1tail : (ringbufMemcpyInto rb src).2.tail = rb.tail := by
    show (if ringbufBytesFree rb < src.length
        then (rb.tail + (src.length - ringbufBytesFree rb)) % rb.size
        else rb.tail) = rb.tail
    rw [if_neg (by omega)]
  have hused1 : ringbufBytesUsed (ringbufMemcpyInto rb src).2 =
      ringbufBytesUsed rb + src.length := by
    unfold ringbufBytesUsed
    rw [h1size, h1head, h1tail,
      used_advance rb.size rb.head rb.tail src.length ht.le,
      ← Nat.mod_add_mod, ← hud]
    exact Nat.mod_eq_of_lt (by omega)
  -- the extraction does not underflow, and advances only the tail
  have hnou : ¬ ringbufBytesUsed (ringbufMemcpyInto rb src).2 < src.length := by
    rw [hused1]; omega
  have h2 : ringbufMemcpyFrom (ringbufMemcpyInto rb src).2 src.length =
      (some (readRun rb.size (writeRun rb.size rb.data rb.head src) rb.tail
          src.length, (rb.tail + src.length) % rb.size),
        { size := rb.size, head := (rb.head + src.length) % rb.size,
          tail := (rb.tail + src.length) % rb.size,
          data := writeRun rb.size rb.data rb.head src }) := by
    unfold ringbufMemcpyFrom
    rw [if_neg hnou, h1size, h1data, h1tail, h1head]
  rw [h2]
  have hused2 : ringbufBytesUsed
      { size := rb.size, head := (rb.head + src.length) % rb.size,
        tail := (rb.tail + src.length) % rb.size,
        data := writeRun rb.size rb.data rb.head src } =
      ringbufBytesUsed rb := by
    unfold ringbufBytesUsed
    show ((rb.head + src.length) % rb.size + rb.size -
      (rb.tail + src.length) % rb.size) % rb.size = _
    rw [used_shift_cancel rb.size rb.head rb.tail src.length hS ht]
  refine ⟨hused2, ?_, ?_⟩
  · unfold ringbufBytesFree
    rw [hused2]
    rfl
  · intro h0
    have hht : rb.head = rb.tail :=
      head_eq_tail_of_used_zero rb ⟨hh, ht, hd⟩ h0
    show some (readRun rb.size (writeRun rb.size rb.data rb.head src) rb.tail
        src.length, (rb.tail + src.length) % rb.size) = _
    congr 1
    refine Prod.ext ?_ rfl
    show readRun rb.size (writeRun rb.size rb.data rb.head src) rb.tail
        src.length = src
    apply List.ext_getElem?
    intro i
    by_cases hi : i < src.length
    · rw [readRun_getElem rb.size _ src.length rb.tail i ht hi]
      have hw : (writeRun rb.size rb.data rb.head src)[(rb.head + i) %
          rb.size]? = src[i]? :=
        writeRun_getElem_written rb.size src rb.data rb.head i (by omega)
          hh hd hi
      rw [hht] at hw
      rw [List.getD_eq_getElem?_getD, hht, hw, List.getElem?_eq_getElem hi]
      rfl
    · rw [List.getElem?_eq_none (by rw [readRun_length]; omega),
        List.getElem?_eq_none (by omega)]

/-- Closed instance of `c4_round_trip`: copying `[5, 6]` into a fresh
capacity-3 buffer and extracting 2 bytes returns `[5, 6]` and restores the
counts. -/
theorem c4_round_trip_witness :
    ringbufBytesUsed
        (ringbufMemcpyFrom (ringbufMemcpyInto (ringbufNew 3) [5, 6]).2 2).2 =
      ringbufBytesUsed (ringbufNew 3) ∧
    ringbufBytesFree
        (ringbufMemcpyFrom (ringbufMemcpyInto (ringbufNew 3) [5, 6]).2 2).2 =
      ringbufBytesFree (ringbufNew 3) ∧
    (ringbufBytesUsed (ringbufNew 3) = 0 →
      (ringbufMemcpyFrom (ringbufMemcpyInto (ringbufNew 3) [5, 6]).2 2).1 =
        some ([5, 6], ((ringbufNew 3).tail + 2) % (ringbufNew 3).size)) :=
  c4_round_trip (ringbufNew 3) [5, 6] (by decide) (by decide)
